import Mathlib

/-
Verification of the document-to-records converter (main.py).

The core of the program is a line-by-line state machine (doc_to_json) with
two pure helpers (clean_text, extract_url).  This file gives a shallow
embedding of that core and proves or refutes the claims of the
specification against it.

Modelling conventions:
  * Python strings are modelled as Lean String (a wrapper around List Char);
    the regular-expression fragments used by the source are implemented
    directly as recursive functions on List Char, following the
    backtracking semantics of re.match, re.search and re.sub for those
    concrete patterns.
  * Lines are paragraph texts; the dot of the source regexes is modelled as
    matching any character.  The paragraph texts the program consumes are
    single stripped paragraphs, where the distinction between "any
    character" and "any character except a line break" is immaterial.
  * list(set(...)) in the post-processor returns the distinct entries in an
    order Python leaves unspecified; we fix a deterministic order
    (List.dedup over the filtered list).  No claim depends on that order.
  * Code paths on which Python would raise an exception (caught by the
    top-level handler of doc_to_json, which then produces no output) are
    modelled with Except Unit: Except.error models a raised exception.
-/

/-! ## Python string primitives -/

/-- The whitespace characters of Python str.strip and of the regex class
backslash-s (ASCII range). -/
def pyIsSpace (c : Char) : Bool :=
  c = ' ' || c = '\t' || c = '\n' || c = '\r' || c = '\x0b' || c = '\x0c'

/-- Is the first list a prefix of the second (by plain equality of chars). -/
def charsPrefix : List Char → List Char → Bool
  | [], _ => true
  | _ :: _, [] => false
  | a :: as, b :: bs => a == b && charsPrefix as bs

/-- Python substring containment: needle occurs contiguously in hay. -/
def containsSub (needle : List Char) (hay : List Char) : Bool :=
  charsPrefix needle hay ||
    match hay with
    | [] => false
    | _ :: t => containsSub needle t

/-- Python s1 in s2 (substring test). -/
def pyIn (needle hay : String) : Bool :=
  containsSub needle.toList hay.toList

def trimLeftL (l : List Char) : List Char := l.dropWhile pyIsSpace

def trimRightL (l : List Char) : List Char :=
  (l.reverse.dropWhile pyIsSpace).reverse

/-- Python str.strip(): remove leading and trailing whitespace. -/
def pyStripL (l : List Char) : List Char := trimRightL (trimLeftL l)

def pyStripS (s : String) : String := String.mk (pyStripL s.toList)

/-- Python value.split(","): split on every comma, keeping empty pieces. -/
def splitOnComma : List Char → List (List Char)
  | [] => [[]]
  | c :: cs =>
    if c = ',' then [] :: splitOnComma cs
    else
      match splitOnComma cs with
      | [] => [[c]]
      | g :: gs => (c :: g) :: gs

/-- The comma-split, strip, drop-empty idiom of the source
(the list comprehension over value.split(",")). -/
def splitCommas (s : String) : List String :=
  ((splitOnComma s.toList).map (fun l => String.mk (pyStripL l))).filter
    (fun v => v ≠ "")

/-- Split at the first colon: returns (text before, text after), or none
when the line has no colon.  This is how the lazy group of the source
field regex resolves on a paragraph text. -/
def splitFirstColon : List Char → Option (List Char × List Char)
  | [] => none
  | c :: cs =>
    if c = ':' then some ([], cs)
    else
      match splitFirstColon cs with
      | none => none
      | some (b, a) => some (c :: b, a)

def lowerL (l : List Char) : List Char := l.map Char.toLower

/-- Python line.lower().startswith(pre), with pre given already lowercase. -/
def lowerHasPrefix (line : String) (pre : String) : Bool :=
  charsPrefix pre.toList (lowerL line.toList)

/-- Case-insensitive string equality (Python a.lower() == b.lower()). -/
def eqCaseless (a b : String) : Bool :=
  lowerL a.toList == lowerL b.toList

/-! ## clean_text

clean_text removes every star and underscore character (re.sub of the
character class of star and underscore with the empty replacement),
replaces each markup link pattern (bracketed display text followed by a
parenthesised target) by its target (re.sub with replacement group 1),
and strips surrounding whitespace. -/

/-- Deleting every star and underscore: a nonempty run of them is replaced
by the empty string, which is exactly filtering those characters out. -/
def removeEmph (l : List Char) : List Char :=
  l.filter (fun c => c ≠ '*' && c ≠ '_')

/-- The lazy inner group of the link pattern: scan for the first closing
parenthesis, returning the characters before it and the rest after it. -/
def innerClose : List Char → Option (List Char × List Char)
  | [] => none
  | c :: cs =>
    if c = ')' then some ([], cs)
    else
      match innerClose cs with
      | none => none
      | some (g, rest) => some (c :: g, rest)

/-- The opening parenthesis and inner group of the link pattern: require a
parenthesis and then the lazy scan to the first closing parenthesis. -/
def tryParen : List Char → Option (List Char × List Char)
  | [] => none
  | c :: cs2 => if c = '(' then innerClose cs2 else none

/-- After an opening bracket, match the rest of the link pattern in the
backtracking order of the lazy quantifiers: at each closing bracket
immediately followed by an opening parenthesis, try to close the inner
group; on failure keep scanning for a later closing bracket.
Returns (link target, rest after the whole match). -/
def linkAfterBracket : List Char → Option (List Char × List Char)
  | [] => none
  | c :: cs =>
    if c = ']' then
      match tryParen cs with
      | some r => some r
      | none => linkAfterBracket cs
    else linkAfterBracket cs

theorem innerClose_rest_lt :
    ∀ (cs g rest : List Char), innerClose cs = some (g, rest) →
      rest.length < cs.length := by
  intro cs
  induction cs with
  | nil => intro g rest h; simp [innerClose] at h
  | cons c cs ih =>
    intro g rest h
    rw [innerClose] at h
    split at h
    · injection h with h'
      injection h' with h1 h2
      subst h2
      simp
    · split at h
      · exact absurd h (by simp)
      · rename_i g' rest' hrec
        injection h with h'
        injection h' with h1 h2
        subst h2
        have := ih g' rest' hrec
        simp
        omega

theorem tryParen_rest_lt :
    ∀ (cs g rest : List Char), tryParen cs = some (g, rest) →
      rest.length < cs.length := by
  intro cs g rest h
  match cs, h with
  | c :: cs2, h =>
    rw [tryParen] at h
    split at h
    · have := innerClose_rest_lt cs2 g rest h
      simp
      omega
    · exact absurd h (by simp)

theorem linkAfterBracket_rest_lt :
    ∀ (cs g rest : List Char), linkAfterBracket cs = some (g, rest) →
      rest.length < cs.length := by
  intro cs
  induction cs with
  | nil => intro g rest h; simp [linkAfterBracket] at h
  | cons c cs ih =>
    intro g rest h
    rw [linkAfterBracket] at h
    split at h
    · split at h
      · rename_i r hr
        obtain ⟨g', rest'⟩ := r
        injection h with h'
        rw [h'] at hr
        have := tryParen_rest_lt cs g rest hr
        simp
        omega
      · have := ih g rest h
        simp
        omega
    · have := ih g rest h
      simp
      omega

/-- One pass of re.sub over the link pattern, with explicit fuel so that
the definition is structurally recursive (the fuel is always sufficient:
the rest after a match is strictly shorter).  Scans left to right; at each
opening bracket tries to complete a link match, replaces the whole match
by the inner group, and continues after it. -/
def replaceLinksAux : Nat → List Char → List Char
  | 0, l => l
  | _ + 1, [] => []
  | fuel + 1, c :: cs =>
    if c = '[' then
      match linkAfterBracket cs with
      | some (g, rest) => g ++ replaceLinksAux fuel rest
      | none => c :: replaceLinksAux fuel cs
    else c :: replaceLinksAux fuel cs

def replaceLinks (l : List Char) : List Char := replaceLinksAux l.length l

/-- clean_text on character lists: delete emphasis characters, replace
each markup link by its target, strip surrounding whitespace. -/
def clean_textL (l : List Char) : List Char :=
  pyStripL (replaceLinks (removeEmph l))

/-- clean_text of the source: remove markdown-like formatting and extra
whitespace. -/
def clean_text (s : String) : String := String.mk (clean_textL s.toList)

/-! ## extract_url -/

/-- Find the first markup link anywhere in the text and return its target
(the search part of extract_url for the link pattern). -/
def findLink : List Char → Option (List Char)
  | [] => none
  | c :: cs =>
    if c = '[' then
      match linkAfterBracket cs with
      | some (g, _) => some g
      | none => findLink cs
    else findLink cs

/-- The characters allowed inside a bare URL: everything except
whitespace, greater-than, double quote, single quote, closing bracket and
closing parenthesis. -/
def urlChar (c : Char) : Bool :=
  !(pyIsSpace c || c = '>' || c = '"' || c = '\'' || c = ']' || c = ')')

/-- Try to match a bare URL at the start of the text: an "http" scheme
with optional "s", the separator, then a nonempty greedy run of URL
characters. -/
def bareUrlAt (l : List Char) : Option (List Char) :=
  let after : Option (List Char × List Char) :=
    if charsPrefix "https://".toList l then some ("https://".toList, l.drop 8)
    else if charsPrefix "http://".toList l then some ("http://".toList, l.drop 7)
    else none
  match after with
  | none => none
  | some (scheme, rest) =>
    let run := rest.takeWhile urlChar
    if run = [] then none else some (scheme ++ run)

/-- re.search for the bare URL pattern: first match anywhere. -/
def findBareUrl : List Char → Option (List Char)
  | [] => none
  | l@(_ :: cs) =>
    match bareUrlAt l with
    | some u => some u
    | none => findBareUrl cs

/-- extract_url of the source: a markup link target if one occurs,
otherwise the first bare URL, otherwise none. -/
def extract_url (s : String) : Option String :=
  match findLink s.toList with
  | some g => some (String.mk g)
  | none => (findBareUrl s.toList).map String.mk

/-- The markup-link part of extract_url alone (used to state when the
second application of clean_text can find a new link to rewrite). -/
def markdownTarget (s : String) : Option String :=
  (findLink s.toList).map String.mk

/-- re.match of the URL scheme against the start of a line. -/
def startsWithScheme (s : String) : Bool :=
  charsPrefix "http://".toList s.toList || charsPrefix "https://".toList s.toList

/-! ## Data model

A record ("tool") is a dictionary over the fixed field set.  All fields
are statically typed by what the state machine stores in them, except
Full Description: the source initialises it with a subsection dictionary
but one code path overwrites it with a plain string, so its value is a
sum of the two shapes. -/

inductive FieldName where
  | toolName | websiteLink | logo | screenshots | shortDescription
  | fullDescription | slug | metaTitle | metaDescription | category
  | productType | tags
deriving DecidableEq, Repr

/-- The dictionary key of each field, as written in the source. -/
def FieldName.pyName : FieldName → String
  | .toolName => "Tool Name"
  | .websiteLink => "Website Link"
  | .logo => "Logo"
  | .screenshots => "Screenshots"
  | .shortDescription => "Short Description"
  | .fullDescription => "Full Description"
  | .slug => "Slug"
  | .metaTitle => "Meta Title"
  | .metaDescription => "Meta Description"
  | .category => "Category"
  | .productType => "Product Type"
  | .tags => "Tags"

/-- FIELDS of the source, in order. -/
def FIELDS : List FieldName :=
  [.toolName, .websiteLink, .logo, .screenshots, .shortDescription,
   .fullDescription, .slug, .metaTitle, .metaDescription, .category,
   .productType, .tags]

def ARRAY_FIELDS : List FieldName := [.category, .tags, .screenshots]

def URL_FIELDS : List FieldName := [.websiteLink, .logo, .screenshots]

inductive Subsection where
  | introduction | keyFeatures | useCases | howItWorks | whyChoose
  | futureVision | conclusion
deriving DecidableEq, Repr

def Subsection.pyName : Subsection → String
  | .introduction => "Introduction"
  | .keyFeatures => "Key Features"
  | .useCases => "Use Cases"
  | .howItWorks => "How It Works"
  | .whyChoose => "Why Choose"
  | .futureVision => "Future Vision"
  | .conclusion => "Conclusion"

/-- FULL_DESCRIPTION_SUBSECTIONS of the source, in order. -/
def SUBSECTIONS : List Subsection :=
  [.introduction, .keyFeatures, .useCases, .howItWorks, .whyChoose,
   .futureVision, .conclusion]

/-- The nested subsection dictionary under Full Description. -/
structure FullDesc where
  introduction : String := ""
  keyFeatures : String := ""
  useCases : String := ""
  howItWorks : String := ""
  whyChoose : String := ""
  futureVision : String := ""
  conclusion : String := ""
deriving DecidableEq, Repr

def FullDesc.get (d : FullDesc) : Subsection → String
  | .introduction => d.introduction
  | .keyFeatures => d.keyFeatures
  | .useCases => d.useCases
  | .howItWorks => d.howItWorks
  | .whyChoose => d.whyChoose
  | .futureVision => d.futureVision
  | .conclusion => d.conclusion

def FullDesc.set (d : FullDesc) (sub : Subsection) (v : String) : FullDesc :=
  match sub with
  | .introduction => { d with introduction := v }
  | .keyFeatures => { d with keyFeatures := v }
  | .useCases => { d with useCases := v }
  | .howItWorks => { d with howItWorks := v }
  | .whyChoose => { d with whyChoose := v }
  | .futureVision => { d with futureVision := v }
  | .conclusion => { d with conclusion := v }

def FullDesc.mapAll (f : String → String) (d : FullDesc) : FullDesc :=
  { introduction := f d.introduction, keyFeatures := f d.keyFeatures,
    useCases := f d.useCases, howItWorks := f d.howItWorks,
    whyChoose := f d.whyChoose, futureVision := f d.futureVision,
    conclusion := f d.conclusion }

/-- The value stored under Full Description: the subsection dictionary the
source initialises, or the plain string a field declaration with inline
value writes over it. -/
inductive FDVal where
  | fd (d : FullDesc)
  | str (s : String)
deriving DecidableEq, Repr

/-- A record under construction or emitted. -/
structure Tool where
  toolName : String := ""
  websiteLink : String := ""
  logo : String := ""
  screenshots : List String := []
  shortDescription : String := ""
  fullDescription : FDVal := .fd {}
  slug : String := ""
  metaTitle : String := ""
  metaDescription : String := ""
  category : List String := []
  productType : String := ""
  tags : List String := []
deriving DecidableEq, Repr

/-- The fresh record a new-record marker creates: every field at its zero
value and the subsection dictionary installed. -/
def emptyTool : Tool := {}

/-- Plain dictionary write of a string value, current_tool of key
becomes s.  For Full Description this replaces the subsection dictionary
by the string, exactly as the dictionary write does in the source.
For Category and Tags the source would likewise store the raw
string over the list; that branch is unreachable (a pending URL exists
only while the current field is a URL field), and we keep the list shape
with the single value. -/
def Tool.pySet (t : Tool) (f : FieldName) (s : String) : Tool :=
  match f with
  | .toolName => { t with toolName := s }
  | .websiteLink => { t with websiteLink := s }
  | .logo => { t with logo := s }
  | .screenshots => { t with screenshots := [s] }
  | .shortDescription => { t with shortDescription := s }
  | .fullDescription => { t with fullDescription := .str s }
  | .slug => { t with slug := s }
  | .metaTitle => { t with metaTitle := s }
  | .metaDescription => { t with metaDescription := s }
  | .category => { t with category := [s] }
  | .productType => { t with productType := s }
  | .tags => { t with tags := [s] }

/-- Dictionary write of a list value (only ever done for the three array
fields). -/
def Tool.setList (t : Tool) (f : FieldName) (l : List String) : Tool :=
  match f with
  | .category => { t with category := l }
  | .tags => { t with tags := l }
  | .screenshots => { t with screenshots := l }
  | _ => t

/-- list.extend on an array field. -/
def Tool.extendList (t : Tool) (f : FieldName) (l : List String) : Tool :=
  match f with
  | .category => { t with category := t.category ++ l }
  | .tags => { t with tags := t.tags ++ l }
  | .screenshots => { t with screenshots := t.screenshots ++ l }
  | _ => t

/-- Dictionary read of a scalar string field (used by the general
continuation for the non-array, non-URL fields). -/
def Tool.getScalar (t : Tool) (f : FieldName) : String :=
  match f with
  | .toolName => t.toolName
  | .shortDescription => t.shortDescription
  | .slug => t.slug
  | .metaTitle => t.metaTitle
  | .metaDescription => t.metaDescription
  | .productType => t.productType
  | _ => ""

/-! ## Line classifier -/

/-- The tail of the new-record marker after optional heading decoration:
the words "tool name" case-insensitively, optional whitespace, a colon,
end of line. -/
def toolNameTail (l : List Char) : Bool :=
  lowerL (l.take 9) == "tool name".toList &&
    (l.drop 9).dropWhile pyIsSpace == [':']

/-- is_new_tool of the source: the cleaned line matches the anchored
pattern of optional triple-hash decoration, "Tool Name", optional
whitespace and a final colon, case-insensitively. -/
def is_new_tool (line : String) : Bool :=
  let cl := (clean_text line).toList
  toolNameTail cl ||
    (charsPrefix "###".toList cl &&
      toolNameTail ((cl.drop 3).dropWhile pyIsSpace))

/-- The generic field-declaration match: resolve the optional heading
decoration and the lazy label group of the source regex (the label runs
to the first colon, trailing whitespace dropped; the value is the rest,
stripped).  The label, cleaned, must equal a known field name
case-insensitively; otherwise the line is not a field declaration.
The second regex alternative of the source (double-hash decoration) is
subsumed by the first on paragraph texts: with the optional group absent,
the lazy group itself covers any decoration. -/
def fieldDecl (line : String) : Option (FieldName × String) :=
  let l := line.toList
  let body := if charsPrefix "###".toList l then (l.drop 3).dropWhile pyIsSpace else l
  match splitFirstColon body with
  | none => none
  | some (before, after) =>
    let candidate := clean_text (String.mk (pyStripL before))
    match FIELDS.find? (fun f => eqCaseless f.pyName candidate) with
    | none => none
    | some f => some (f, String.mk (pyStripL after))

/-- The subsection-declaration match inside Full Description: optional
four-hash decoration, label to the first colon; the cleaned label must
start with a known subsection name, case-insensitively. -/
def subsectionDecl (line : String) : Option (Subsection × String) :=
  let l := line.toList
  let body := if charsPrefix "####".toList l then (l.drop 4).dropWhile pyIsSpace else l
  match splitFirstColon body with
  | none => none
  | some (before, after) =>
    let candidate := clean_text (String.mk (pyStripL before))
    match SUBSECTIONS.find?
        (fun sub => charsPrefix (lowerL sub.pyName.toList) (lowerL candidate.toList)) with
    | none => none
    | some sub => some (sub, String.mk (pyStripL after))

/-! ## Record assembler (state machine) -/

/-- The cursor of the state machine: the record under construction and
the per-line bookkeeping of the source loop. -/
structure Cursor where
  current : Option Tool := none
  currentKey : Option FieldName := none
  currentSubsection : Option Subsection := none
  inFullDescription : Bool := false
  inScreenshots : Bool := false
  partialUrl : Option String := none
  expectToolName : Bool := false
deriving DecidableEq, Repr

/-- The whole state: emitted records plus the cursor. -/
structure State where
  tools : List Tool := []
  cur : Cursor := {}
deriving DecidableEq, Repr

/-- The cursor right after a new-record marker. -/
def freshCursor : Cursor :=
  { current := some emptyTool, currentKey := some .toolName,
    currentSubsection := none, inFullDescription := false,
    inScreenshots := false, partialUrl := none, expectToolName := true }

/-- Assign a completed pending fragment to the field in progress: append
for Screenshots, plain dictionary write otherwise.  With no current key
Python would write the value under the None key of the dictionary,
leaving every named field unchanged. -/
def assignPartial (key : Option FieldName) (t : Tool) (s : String) : Tool :=
  match key with
  | none => t
  | some .screenshots => { t with screenshots := t.screenshots ++ [s] }
  | some f => t.pySet f s

/-- The pending-partial-URL transition of the source: if the raw line
starts with a URL scheme, complete the pending fragment into the field in
progress and restart the pending fragment from the extraction of the
cleaned line; otherwise append the cleaned line to the fragment with a
space, and if extraction now yields a truthy URL, assign the completed
URL and clear the pending state.  The completion test is Python
truthiness: an extracted empty string (an empty markup target) counts as
no URL and accumulation continues. -/
def partialUrlStep (c : Cursor) (t : Tool) (p : String) (line cleaned : String) :
    Cursor :=
  if startsWithScheme line then
    { c with current := some (assignPartial c.currentKey t p),
             partialUrl := extract_url cleaned }
  else
    let p2 := p ++ " " ++ cleaned
    match extract_url p2 with
    | some u =>
      if u = "" then { c with partialUrl := some p2 }
      else
        { c with current := some (assignPartial c.currentKey t u),
                 partialUrl := none }
    | none => { c with partialUrl := some p2 }

/-- The field-declaration transition: set the cursor to the matched
field, update the two mode flags, clear the subsection; with an inline
value, array fields are replaced by the comma-split tokens, URL fields
try extraction (Screenshots becoming a one-element list) and fall back to
a pending fragment, and every other field is written directly.  The
extraction test is Python truthiness: an extracted empty string is falsy
and falls through to the pending fragment like a failed extraction. -/
def applyFieldDecl (c : Cursor) (t : Tool) (f : FieldName) (value : String) :
    Cursor :=
  let base := { c with currentKey := some f,
                       inFullDescription := decide (f = FieldName.fullDescription),
                       inScreenshots := decide (f = FieldName.screenshots),
                       currentSubsection := (none : Option Subsection) }
  if value = "" then { base with current := some t }
  else if ARRAY_FIELDS.contains f then
    { base with current := some (t.setList f (splitCommas value)) }
  else if URL_FIELDS.contains f then
    match extract_url value with
    | some url =>
      if url = "" then { base with current := some t, partialUrl := some value }
      else if f = .screenshots then
        { base with current := some { t with screenshots := [url] } }
      else { base with current := some (t.pySet f url) }
    | none => { base with current := some t, partialUrl := some value }
  else { base with current := some (t.pySet f value) }

/-- The special-cased Logo declaration (line starts with "logo:"
case-insensitively): the value is what follows the first colon of the
cleaned line.  Python indexes the split result; no colon in the cleaned
line would raise, which cannot happen since cleaning preserves the
prefix. -/
def applyLogoDecl (c : Cursor) (t : Tool) (cleaned : String) :
    Except Unit Cursor :=
  let base := { c with currentKey := some FieldName.logo,
                       inScreenshots := false, inFullDescription := false,
                       currentSubsection := (none : Option Subsection) }
  match splitFirstColon cleaned.toList with
  | none => .error ()
  | some (_, afterColon) =>
    let value := String.mk (pyStripL afterColon)
    match extract_url value with
    | some url =>
      if url = "" then
        -- Python truthiness: an extracted empty string is falsy and
        -- falls to the pending-fragment branch (the value is then
        -- necessarily non-empty, since extraction found a match in it).
        .ok { base with current := some t, partialUrl := some value }
      else .ok { base with current := some { t with logo := url } }
    | none =>
      if value = "" then .ok { base with current := some t }
      else .ok { base with current := some t, partialUrl := some value }

/-- The special-cased Screenshots declaration: same shape as Logo, but a
successfully extracted URL is appended to the list. -/
def applyScreenshotsDecl (c : Cursor) (t : Tool) (cleaned : String) :
    Except Unit Cursor :=
  let base := { c with currentKey := some FieldName.screenshots,
                       inScreenshots := true, inFullDescription := false,
                       currentSubsection := (none : Option Subsection) }
  match splitFirstColon cleaned.toList with
  | none => .error ()
  | some (_, afterColon) =>
    let value := String.mk (pyStripL afterColon)
    match extract_url value with
    | some url =>
      if url = "" then
        -- Python truthiness: falsy extraction falls to the pending branch.
        .ok { base with current := some t, partialUrl := some value }
      else
        .ok { base with current := some { t with screenshots := t.screenshots ++ [url] } }
    | none =>
      if value = "" then .ok { base with current := some t }
      else .ok { base with current := some t, partialUrl := some value }

/-- The screenshots-list transition: append a truthy extracted URL; else
if the cleaned line starts with a URL scheme, open a pending fragment;
else leave screenshots mode (the line is consumed either way).  An
extracted empty string is falsy in Python and is treated as no URL. -/
def screenshotsStep (c : Cursor) (t : Tool) (cleaned : String) : Cursor :=
  match extract_url cleaned with
  | some url =>
    if url = "" then
      if startsWithScheme cleaned then { c with partialUrl := some cleaned }
      else { c with inScreenshots := false }
    else { c with current := some { t with screenshots := t.screenshots ++ [url] } }
  | none =>
    if startsWithScheme cleaned then { c with partialUrl := some cleaned }
    else { c with inScreenshots := false }

/-- The Full Description transition: a matched subsection declaration
replaces that subsection with the inline value; otherwise, with a
subsection active, the cleaned line is appended to it; otherwise the line
is dropped.  When Full Description holds a plain string, the item write
into it raises in Python. -/
def fullDescriptionStep (c : Cursor) (t : Tool) (line cleaned : String) :
    Except Unit Cursor :=
  match subsectionDecl line with
  | some (sub, value) =>
    match t.fullDescription with
    | .fd d =>
      .ok { c with currentSubsection := some sub,
                   current := some { t with fullDescription := .fd (d.set sub value) } }
    | .str _ => .error ()
  | none =>
    match c.currentSubsection with
    | some sub =>
      match t.fullDescription with
      | .fd d =>
        let d2 := d.set sub (d.get sub ++ " " ++ cleaned)
        .ok { c with current := some { t with fullDescription := .fd d2 } }
      | .str _ => .error ()
    | none => .ok c

/-- The general continuation of the source (current field set, not inside
the screenshots or long-description modes): array fields extend with the
comma-split tokens; URL fields, only when still empty, try extraction
(Python truthiness: an extracted empty string is falsy) and fall back to
opening a pending fragment; Full Description would be a dictionary
augmented with a string, which raises in Python unless it was overwritten
by a plain string; all other fields append the cleaned line with a space.
Takes the pending value in force (necessarily falsy here) and returns the
updated record and the pending value afterwards: only the fallback branch
writes it, every other branch leaves it unchanged. -/
def generalContinuation (t : Tool) (k : FieldName) (cleaned : String)
    (pu : Option String) : Except Unit (Tool × Option String) :=
  if ARRAY_FIELDS.contains k then
    .ok (t.extendList k (splitCommas cleaned), pu)
  else if URL_FIELDS.contains k then
    match k with
    | .websiteLink =>
      if t.websiteLink ≠ "" then .ok (t, pu)
      else
        match extract_url cleaned with
        | some url =>
          if url = "" then .ok (t, some cleaned)
          else .ok (t.pySet .websiteLink url, pu)
        | none => .ok (t, some cleaned)
    | .logo =>
      if t.logo ≠ "" then .ok (t, pu)
      else
        match extract_url cleaned with
        | some url =>
          if url = "" then .ok (t, some cleaned)
          else .ok (t.pySet .logo url, pu)
        | none => .ok (t, some cleaned)
    | _ =>
      -- Screenshots is also an array field, so this arm is never reached;
      -- kept for the shape of the source conditionals.
      if t.screenshots ≠ [] then .ok (t, pu)
      else
        match extract_url cleaned with
        | some url =>
          if url = "" then .ok (t, some cleaned)
          else .ok ({ t with screenshots := t.screenshots ++ [url] }, pu)
        | none => .ok (t, some cleaned)
  else
    match k with
    | .fullDescription =>
      match t.fullDescription with
      | .fd _ => .error ()
      | .str v => .ok ({ t with fullDescription := .str (v ++ " " ++ cleaned) }, pu)
    | _ => .ok (t.pySet k (t.getScalar k ++ " " ++ cleaned), pu)

/-- The classification chain of the source loop below the pending-URL
test: field declaration, the Logo and Screenshots special cases,
screenshots mode, long-description mode, general continuation. -/
def classifyStep (c : Cursor) (t : Tool) (line cleaned : String) :
    Except Unit Cursor :=
  match fieldDecl line with
  | some (f, value) => .ok (applyFieldDecl c t f value)
  | none =>
    if lowerHasPrefix line "logo:" then applyLogoDecl c t cleaned
    else if lowerHasPrefix line "screenshots:" then applyScreenshotsDecl c t cleaned
    else if c.inScreenshots then .ok (screenshotsStep c t cleaned)
    else if c.inFullDescription then fullDescriptionStep c t line cleaned
    else
      match c.currentKey with
      | none => .ok c
      | some k =>
        (generalContinuation t k cleaned c.partialUrl).map
          (fun r => { c with current := some r.1, partialUrl := r.2 })

/-- One step of the cursor for a nonempty, non-marker line, in the
priority order of the source loop.  The pending-URL test is Python
truthiness: a stored empty fragment is falsy, so the line is classified
normally and the inert empty fragment stays in place. -/
def stepCursor (c : Cursor) (line : String) : Except Unit Cursor :=
  let cleaned := clean_text line
  if c.expectToolName then
    match c.current with
    | none => .error ()
    | some t =>
      .ok { c with current := some { t with toolName := cleaned },
                   expectToolName := false }
  else
    match c.current with
    | none => .ok c
    | some t =>
      match c.partialUrl with
      | some p =>
        if p = "" then classifyStep c t line cleaned
        else .ok (partialUrlStep c t p line cleaned)
      | none => classifyStep c t line cleaned

/-- Closing the open record at a new-record marker: emit it only when its
Tool Name is non-empty. -/
def closeTools (tools : List Tool) (c : Cursor) : List Tool :=
  match c.current with
  | none => tools
  | some t => if t.toolName = "" then tools else tools ++ [t]

/-- One step of the whole state for one paragraph: strip it, skip it if
blank, handle a new-record marker, otherwise run the cursor step. -/
def stepE (s : State) (para : String) : Except Unit State :=
  let line := pyStripS para
  if line = "" then .ok s
  else if is_new_tool line then
    .ok { tools := closeTools s.tools s.cur, cur := freshCursor }
  else
    (stepCursor s.cur line).map (fun c => { tools := s.tools, cur := c })

/-- End of input: if a record is open and named, finalize a still-pending
URL fragment into the field in progress and emit the record.  The
pending test is Python truthiness: a stored empty fragment is falsy and
is not flushed. -/
def finalize (s : State) : List Tool :=
  match s.cur.current with
  | none => s.tools
  | some t =>
    if t.toolName = "" then s.tools
    else
      match s.cur.partialUrl with
      | none => s.tools ++ [t]
      | some p =>
        if p = "" then s.tools ++ [t]
        else
          match s.cur.currentKey with
          | none => s.tools ++ [t]
          | some k =>
            if URL_FIELDS.contains k then
              if k = .screenshots then
                s.tools ++ [{ t with screenshots := t.screenshots ++ [p] }]
              else s.tools ++ [t.pySet k p]
            else s.tools ++ [t]

def runLines : State → List String → Except Unit State
  | s, [] => .ok s
  | s, p :: ps =>
    match stepE s p with
    | .error e => .error e
    | .ok s2 => runLines s2 ps

/-- The parsing pass of doc_to_json: run the loop from the empty state
over the paragraph texts and close the last record. -/
def parseDoc (paras : List String) : Except Unit (List Tool) :=
  (runLines {} paras).map finalize

/-! ## Post-processor -/

/-- list(set(filter(None, xs))): the distinct non-empty entries.  Python
leaves the order unspecified; List.dedup fixes one. -/
def dedupF (xs : List String) : List String :=
  (xs.filter (fun v => v ≠ "")).dedup

/-- The URL re-extraction applied to every stored URL value: the
extracted form when it is truthy, the original string otherwise (the or
of the source keeps the original when extraction yields the falsy empty
string or nothing). -/
def urlFix (v : String) : String :=
  match extract_url v with
  | some u => if u = "" then v else u
  | none => v

/-- The subsection normalization of the post-processor: clean_text
followed by the extra strip of the source. -/
def subFix (v : String) : String := pyStripS (clean_text v)

/-- The per-record post-processing pass of the source, in source order:
deduplicate the array fields dropping empty entries; re-extract every URL
field value; normalize every subsection text; default Product Type;
default Category by the keyword rule.  When Full Description holds a
non-empty plain string, iterating its items raises in Python; when it
holds the empty string, the subsection loop body never runs, and the
Category keyword rule raises unless the first containment test
short-circuits it. -/
def postprocessTool (t : Tool) : Except Unit Tool :=
  let t1 := { t with category := dedupF t.category, tags := dedupF t.tags,
                     screenshots := dedupF t.screenshots }
  let t2 := { t1 with websiteLink := urlFix t1.websiteLink,
                      logo := urlFix t1.logo,
                      screenshots := t1.screenshots.map urlFix }
  match t2.fullDescription with
  | .str s =>
    if s = "" then
      let t4 := if t2.productType = "" then { t2 with productType := "AI Tool" } else t2
      if t4.category = [] then
        if pyIn "Writing" t4.shortDescription then
          .ok { t4 with category := ["AI Writing Assistant"] }
        else .error ()
      else .ok t4
    else .error ()
  | .fd d =>
    let d2 := FullDesc.mapAll subFix d
    let t3 := { t2 with fullDescription := .fd d2 }
    let t4 := if t3.productType = "" then { t3 with productType := "AI Tool" } else t3
    if t4.category = [] then
      if pyIn "Writing" t4.shortDescription || pyIn "Writing" d2.introduction then
        .ok { t4 with category := ["AI Writing Assistant"] }
      else if pyIn "Image" t4.shortDescription || pyIn "Image" d2.introduction then
        .ok { t4 with category := ["AI Image Generation Tool"] }
      else .ok { t4 with category := ["AI Tool"] }
    else .ok t4

/-- The post-processing loop over the emitted records. -/
def postprocessList : List Tool → Except Unit (List Tool)
  | [] => .ok []
  | t :: ts =>
    match postprocessTool t with
    | .error e => .error e
    | .ok t2 =>
      match postprocessList ts with
      | .error e => .error e
      | .ok ts2 => .ok (t2 :: ts2)

/-- The core of doc_to_json: parse the paragraph stream, then post-process
the emitted records.  An error is a raised exception, caught by the
top-level handler of the source, which then writes no output. -/
def doc_to_json (paras : List String) : Except Unit (List Tool) :=
  match parseDoc paras with
  | .error e => .error e
  | .ok ts => postprocessList ts

/-! ## Supporting lemmas -/

theorem toList_mk (l : List Char) : (String.mk l).toList = l := rfl

theorem except_map_ok {α β : Type} (f : α → β) (e : Except Unit α) (b : β)
    (h : e.map f = .ok b) : ∃ a, e = .ok a ∧ f a = b := by
  cases e with
  | error e => simp [Except.map] at h
  | ok a => exact ⟨a, rfl, by simpa [Except.map] using h⟩

theorem mem_dropWhile {p : Char → Bool} {c : Char} :
    ∀ {l : List Char}, c ∈ l.dropWhile p → c ∈ l := by
  intro l
  induction l with
  | nil => simp [List.dropWhile]
  | cons a l ih =>
    intro h
    rw [List.dropWhile] at h
    by_cases hp : p a
    · simp [hp] at h
      exact List.mem_cons_of_mem a (ih h)
    · simp [hp] at h
      simpa using h

theorem mem_trimLeftL {c : Char} {l : List Char} (h : c ∈ trimLeftL l) : c ∈ l :=
  mem_dropWhile h

theorem mem_trimRightL {c : Char} {l : List Char} (h : c ∈ trimRightL l) : c ∈ l := by
  rw [trimRightL] at h
  rw [List.mem_reverse] at h
  have := mem_dropWhile h
  rwa [List.mem_reverse] at this

theorem mem_pyStripL {c : Char} {l : List Char} (h : c ∈ pyStripL l) : c ∈ l :=
  mem_trimLeftL (mem_trimRightL h)

theorem mem_innerClose {cs g rest : List Char}
    (h : innerClose cs = some (g, rest)) {c : Char} :
    (c ∈ g → c ∈ cs) ∧ (c ∈ rest → c ∈ cs) := by
  induction cs generalizing g rest with
  | nil => simp [innerClose] at h
  | cons a cs ih =>
    rw [innerClose] at h
    split at h
    · injection h with h'
      injection h' with h1 h2
      subst h1; subst h2
      exact ⟨by simp, fun hc => List.mem_cons_of_mem a hc⟩
    · split at h
      · exact absurd h (by simp)
      · rename_i g' rest' hrec
        injection h with h'
        injection h' with h1 h2
        subst h1; subst h2
        obtain ⟨ihg, ihr⟩ := ih hrec
        constructor
        · intro hc
          rcases List.mem_cons.mp hc with h | h
          · simp [h]
          · exact List.mem_cons_of_mem a (ihg h)
        · intro hc
          exact List.mem_cons_of_mem a (ihr hc)

theorem mem_tryParen {cs g rest : List Char}
    (h : tryParen cs = some (g, rest)) {c : Char} :
    (c ∈ g → c ∈ cs) ∧ (c ∈ rest → c ∈ cs) := by
  match cs, h with
  | a :: cs2, h =>
    rw [tryParen] at h
    split at h
    · obtain ⟨hg, hr⟩ := mem_innerClose h (c := c)
      exact ⟨fun hc => List.mem_cons_of_mem a (hg hc),
             fun hc => List.mem_cons_of_mem a (hr hc)⟩
    · exact absurd h (by simp)

theorem mem_linkAfterBracket {cs g rest : List Char}
    (h : linkAfterBracket cs = some (g, rest)) {c : Char} :
    (c ∈ g → c ∈ cs) ∧ (c ∈ rest → c ∈ cs) := by
  induction cs generalizing g rest with
  | nil => simp [linkAfterBracket] at h
  | cons a cs ih =>
    rw [linkAfterBracket] at h
    split at h
    · split at h
      · rename_i r hr
        obtain ⟨g', rest'⟩ := r
        injection h with h'
        rw [h'] at hr
        obtain ⟨hg, hrs⟩ := mem_tryParen hr (c := c)
        exact ⟨fun hc => List.mem_cons_of_mem a (hg hc),
               fun hc => List.mem_cons_of_mem a (hrs hc)⟩
      · obtain ⟨hg, hrs⟩ := ih h
        exact ⟨fun hc => List.mem_cons_of_mem a (hg hc),
               fun hc => List.mem_cons_of_mem a (hrs hc)⟩
    · obtain ⟨hg, hrs⟩ := ih h
      exact ⟨fun hc => List.mem_cons_of_mem a (hg hc),
             fun hc => List.mem_cons_of_mem a (hrs hc)⟩

theorem mem_replaceLinksAux {c : Char} :
    ∀ (fuel : Nat) (l : List Char), c ∈ replaceLinksAux fuel l → c ∈ l := by
  intro fuel
  induction fuel with
  | zero => intro l h; rw [replaceLinksAux] at h; exact h
  | succ fuel ih =>
    intro l h
    match l with
    | [] => rw [replaceLinksAux] at h; exact h
    | a :: cs =>
      rw [replaceLinksAux] at h
      split at h
      · split at h
        · rename_i g rest hl
          rw [List.mem_append] at h
          rcases h with h | h
          · exact List.mem_cons_of_mem a ((mem_linkAfterBracket hl).1 h)
          · exact List.mem_cons_of_mem a ((mem_linkAfterBracket hl).2 (ih rest h))
        · rcases List.mem_cons.mp h with h | h
          · simp [h]
          · exact List.mem_cons_of_mem a (ih cs h)
      · rcases List.mem_cons.mp h with h | h
        · simp [h]
        · exact List.mem_cons_of_mem a (ih cs h)

theorem mem_replaceLinks {c : Char} {l : List Char}
    (h : c ∈ replaceLinks l) : c ∈ l :=
  mem_replaceLinksAux l.length l h

theorem mem_clean_textL {c : Char} {l : List Char}
    (h : c ∈ clean_textL l) : c ∈ l := by
  have h1 := mem_pyStripL h
  have h2 := mem_replaceLinks h1
  rw [removeEmph, List.mem_filter] at h2
  exact h2.1

theorem clean_textL_noEmph {c : Char} {l : List Char}
    (h : c ∈ clean_textL l) : ¬(c = '*' ∨ c = '_') := by
  have h1 := mem_pyStripL h
  have h2 := mem_replaceLinks h1
  rw [removeEmph, List.mem_filter] at h2
  have := h2.2
  simp at this
  simp [this]

theorem removeEmph_eq_self {l : List Char}
    (h : ∀ c ∈ l, ¬(c = '*' ∨ c = '_')) : removeEmph l = l := by
  rw [removeEmph, List.filter_eq_self]
  intro a ha
  have := h a ha
  simp at this
  simp [this]

theorem replaceLinksAux_no_link :
    ∀ (fuel : Nat) (l : List Char), findLink l = none →
      replaceLinksAux fuel l = l := by
  intro fuel
  induction fuel with
  | zero => intro l _; rfl
  | succ fuel ih =>
    intro l h
    match l with
    | [] => rfl
    | a :: cs =>
      rw [findLink] at h
      rw [replaceLinksAux]
      split
      · rename_i ha
        rw [if_pos ha] at h
        split
        · rename_i g rest hl
          rw [hl] at h
          exact absurd h (by simp)
        · rename_i hl
          rw [hl] at h
          rw [ih cs h]
      · rename_i ha
        rw [if_neg ha] at h
        rw [ih cs h]

theorem replaceLinks_no_link {l : List Char} (h : findLink l = none) :
    replaceLinks l = l :=
  replaceLinksAux_no_link l.length l h

theorem trimLeftL_idem (l : List Char) : trimLeftL (trimLeftL l) = trimLeftL l :=
  List.dropWhile_idempotent pyIsSpace l

theorem trimRightL_eq_rdropWhile (l : List Char) :
    trimRightL l = List.rdropWhile pyIsSpace l := rfl

theorem trimRightL_idem (l : List Char) :
    trimRightL (trimRightL l) = trimRightL l := by
  rw [trimRightL_eq_rdropWhile, trimRightL_eq_rdropWhile]
  exact List.rdropWhile_idempotent pyIsSpace l

theorem dropWhile_length_le (p : Char → Bool) :
    ∀ l : List Char, (l.dropWhile p).length ≤ l.length := by
  intro l
  induction l with
  | nil => simp [List.dropWhile]
  | cons a l ih =>
    rw [List.dropWhile]
    by_cases hp : p a = true
    · simp only [hp]
      simp
      omega
    · rw [Bool.not_eq_true] at hp
      simp only [hp]
      simp

theorem trimLeftL_of_pre {q m : List Char} (hq : q <+: m)
    (hm : trimLeftL m = m) : trimLeftL q = q := by
  match q, hq with
  | [], _ => rfl
  | a :: q', hq =>
    obtain ⟨r, hr⟩ := hq
    rw [trimLeftL, List.dropWhile]
    have hm' : m = a :: (q' ++ r) := by rw [← hr]; rfl
    rw [hm', trimLeftL, List.dropWhile] at hm
    by_cases hp : pyIsSpace a = true
    · simp only [hp] at hm
      exfalso
      have h1 : (List.dropWhile pyIsSpace (q' ++ r)).length = (q' ++ r).length + 1 := by
        rw [hm]
        simp
      have h2 := dropWhile_length_le pyIsSpace (q' ++ r)
      omega
    · rw [Bool.not_eq_true] at hp
      simp only [hp]

theorem pyStripL_idem (l : List Char) : pyStripL (pyStripL l) = pyStripL l := by
  rw [pyStripL, pyStripL]
  have h1 : trimLeftL (trimLeftL l) = trimLeftL l := trimLeftL_idem l
  have hpre : trimRightL (trimLeftL l) <+: trimLeftL l := by
    rw [trimRightL_eq_rdropWhile]
    exact List.rdropWhile_prefix pyIsSpace (trimLeftL l)
  rw [trimLeftL_of_pre hpre h1]
  exact trimRightL_idem (trimLeftL l)

theorem pyStripL_clean_textL (l : List Char) :
    pyStripL (clean_textL l) = clean_textL l := by
  rw [clean_textL]
  exact pyStripL_idem (replaceLinks (removeEmph l))

/-! ## Claim C5: idempotence of the text normalizer -/

/-- C5: the claim that clean_text is idempotent for every input string is
false: replacing a link pattern by its target can create a new link
pattern, which only a second application rewrites.  On this input the
first application yields one string and the second application changes it
again. -/
theorem c5_counterexample :
    clean_text (clean_text "[a](b[c)](d)") ≠ clean_text "[a](b[c)](d)" := by
  decide

/-- C5 (amended): clean_text is idempotent on every string whose cleaned
form contains no markup link pattern; in that case the second pass has no
emphasis characters, no link to rewrite and no surrounding whitespace
left to remove. -/
theorem c5_amended (s : String) (h : markdownTarget (clean_text s) = none) :
    clean_text (clean_text s) = clean_text s := by
  have hfind : findLink (clean_textL s.toList) = none := by
    rw [markdownTarget] at h
    cases hf : findLink (clean_textL s.toList) with
    | none => rfl
    | some g =>
      rw [show (clean_text s).toList = clean_textL s.toList from rfl, hf] at h
      exact absurd h (by simp)
  have hemph : removeEmph (clean_textL s.toList) = clean_textL s.toList :=
    removeEmph_eq_self (fun c hc => clean_textL_noEmph hc)
  show String.mk (clean_textL (clean_textL s.toList)) = String.mk (clean_textL s.toList)
  congr 1
  nth_rewrite 1 [clean_textL]
  rw [hemph, replaceLinks_no_link hfind, pyStripL_clean_textL]

/-- C5 witness: a concrete string satisfying the hypothesis of the
amended claim, on which idempotence holds. -/
theorem c5_witness :
    markdownTarget (clean_text "  *hi there*  ") = none ∧
      clean_text (clean_text "  *hi there*  ") = clean_text "  *hi there*  " :=
  ⟨by decide, c5_amended "  *hi there*  " (by decide)⟩

/-! ## Claim C2: the split URL scenario -/

def c2Input : List String :=
  ["Tool Name:", "Acme", "Website Link: https://acme", ".example/path"]

/-- C2: the claim that on this input the Website Link field resolves to
the concatenated URL is false: the inline value of the declaration line
already extracts as a complete URL, so no pending fragment is started,
and the continuation line is then ignored because the field is already
non-empty.  The field ends up holding the first fragment alone. -/
theorem c2_counterexample :
    Except.map (fun ts => ts.map Tool.websiteLink) (doc_to_json c2Input) =
        Except.ok ["https://acme"] ∧
      ("https://acme" : String) ≠ "https://acme.example/path" :=
  ⟨rfl, by decide⟩

/-- C2 (amended): on the split-URL input the Website Link field equals
the first fragment "https://acme": extraction succeeds on the inline
value, so URL reconstruction never starts and the second line leaves the
already non-empty field unchanged. -/
theorem c2_amended :
    doc_to_json c2Input =
      Except.ok [{ toolName := "Acme", websiteLink := "https://acme",
                   category := ["AI Tool"], productType := "AI Tool" }] := rfl

/-! ## Claim C10: a new-record marker discards the pending fragment -/

/-- C10: when a new-record marker closes an open, named record, the
record is emitted exactly as it stands: the pending partial URL is not
flushed into the field in progress (that best-effort finalization only
runs at end of input), and the fresh cursor clears the pending buffer. -/
theorem c10_marker_discards_partial (s : State) (t : Tool) (para : String)
    (hcur : s.cur.current = some t) (hname : t.toolName ≠ "")
    (hmark : is_new_tool (pyStripS para) = true) :
    stepE s para = .ok { tools := s.tools ++ [t], cur := freshCursor } := by
  have hne : ¬(pyStripS para = "") := by
    intro h0
    rw [h0] at hmark
    exact absurd hmark (by decide)
  simp only [stepE, if_neg hne, hmark, if_true, closeTools, hcur, if_neg hname]

/-- C10 witness: a concrete state with a pending fragment on Website
Link; the marker emits the record with its old (empty) Website Link and
resets the cursor. -/
theorem c10_witness :
    stepE { tools := [],
            cur := { current := some { toolName := "T" },
                     currentKey := some .websiteLink,
                     partialUrl := some "https://pending" } } "Tool Name:" =
      .ok { tools := [{ toolName := "T" }], cur := freshCursor } :=
  c10_marker_discards_partial _ { toolName := "T" } "Tool Name:" rfl
    (by decide) (by decide)

/-! ## Claim C6: pending fragment completed by a scheme line -/

/-- C6 (amended): with a live (non-empty) pending fragment and a line
that itself starts with a URL scheme, the fragment is assigned to the
field in progress (appended for Screenshots, overwritten for the scalar
URL fields), and the new pending fragment becomes the extraction of the
cleaned line: the extracted URL when one extracts, and cleared (not the
line itself) when none does.  A stored empty fragment is falsy in the
pending test of the source and does not take this transition. -/
theorem c6_amended (ts : List Tool) (c : Cursor) (t : Tool) (p : String)
    (para : String)
    (hcur : c.current = some t) (hpart : c.partialUrl = some p)
    (hp : p ≠ "")
    (hexp : c.expectToolName = false)
    (hmark : is_new_tool (pyStripS para) = false)
    (hscheme : startsWithScheme (pyStripS para) = true)
    (hkey : c.currentKey = some .websiteLink ∨ c.currentKey = some .logo ∨
            c.currentKey = some .screenshots) :
    stepE { tools := ts, cur := c } para =
      .ok { tools := ts,
            cur := { c with
              current := some
                (if c.currentKey = some .screenshots then
                   { t with screenshots := t.screenshots ++ [p] }
                 else if c.currentKey = some .websiteLink then
                   { t with websiteLink := p }
                 else { t with logo := p }),
              partialUrl := extract_url (clean_text (pyStripS para)) } } := by
  have hne : ¬(pyStripS para = "") := by
    intro h0
    rw [h0] at hscheme
    exact absurd hscheme (by decide)
  simp only [stepE, if_neg hne, hmark, Bool.false_eq_true, if_false,
    stepCursor, hexp, hcur, hpart, if_neg hp, partialUrlStep,
    if_pos hscheme, Except.map]
  rcases hkey with hk | hk | hk <;>
    simp only [hk, assignPartial, Tool.pySet, reduceCtorEq, if_false, if_true,
      Option.some.injEq, reduceIte]

/-- C6 witness: pending fragment on Website Link, and a scheme line from
which no URL extracts (the character after the separator is disallowed):
the fragment is assigned and the pending buffer is cleared. -/
theorem c6_witness :
    stepE { tools := [],
            cur := { current := some { toolName := "T" },
                     currentKey := some .websiteLink,
                     partialUrl := some "https://old" } } "https://)" =
      .ok { tools := [],
            cur := { current := some { toolName := "T", websiteLink := "https://old" },
                     currentKey := some .websiteLink,
                     partialUrl := none } } :=
  c6_amended [] _ { toolName := "T" } "https://old" "https://)" rfl rfl
    (by decide) rfl (by decide) (by decide) (Or.inl rfl)

/-- C6: the claim that, when no URL extracts from the incoming scheme
line, the new pending fragment becomes the line itself, is false: the
source assigns the extraction result directly, so the pending buffer is
cleared instead of holding the line. -/
theorem c6_counterexample :
    Except.map (fun st => st.cur.partialUrl)
        (stepE { tools := [],
                 cur := { current := some { toolName := "T" },
                          currentKey := some .websiteLink,
                          partialUrl := some "https://old" } } "https://)") =
        Except.ok none ∧
      (none : Option String) ≠ some "https://)" := ⟨rfl, by decide⟩

/-! ## Claim C3: leaving screenshots mode -/

def c3Tool : Tool := { toolName := "T" }

def c3State : State :=
  { tools := [],
    cur := { current := some c3Tool, currentKey := some .screenshots,
             inScreenshots := true } }

/-- C3: the claim that the non-URL line is re-processed in the same step
as a general continuation is false: the source consumes the line when it
exits screenshots mode.  On this concrete state the step only clears the
mode flag and leaves the record unchanged, while the general-continuation
handler applied to the same line against the active field would have
extended the Screenshots list, a different record. -/
theorem c3_counterexample :
    stepE c3State "hello world" =
        .ok { tools := [], cur := { c3State.cur with inScreenshots := false } } ∧
      generalContinuation c3Tool .screenshots "hello world" none =
        .ok ({ c3Tool with screenshots := ["hello world"] }, none) ∧
      ({ c3Tool with screenshots := ["hello world"] } : Tool) ≠ c3Tool :=
  ⟨rfl, rfl, by decide⟩

/-- C3 (amended): in screenshots mode with no pending fragment, a line
from which no URL extracts and which does not start with a URL scheme
exits screenshots mode and is consumed in that same step: the only state
change is the cleared mode flag, ending list accumulation, and only the
following lines fall to the general continuation. -/
theorem c3_amended (ts : List Tool) (c : Cursor) (t : Tool) (para : String)
    (hcur : c.current = some t) (hpart : c.partialUrl = none)
    (hexp : c.expectToolName = false) (hscr : c.inScreenshots = true)
    (hne : pyStripS para ≠ "")
    (hmark : is_new_tool (pyStripS para) = false)
    (hfield : fieldDecl (pyStripS para) = none)
    (hlogo : lowerHasPrefix (pyStripS para) "logo:" = false)
    (hshot : lowerHasPrefix (pyStripS para) "screenshots:" = false)
    (hurl : extract_url (clean_text (pyStripS para)) = none)
    (hsch : startsWithScheme (clean_text (pyStripS para)) = false) :
    stepE { tools := ts, cur := c } para =
      .ok { tools := ts, cur := { c with inScreenshots := false } } := by
  simp only [stepE, if_neg hne, hmark, Bool.false_eq_true, if_false,
    stepCursor, classifyStep, hexp, hcur, hpart, hfield, hlogo, hshot, hscr,
    if_true, screenshotsStep, hurl, hsch, Except.map]

/-- C3 witness: a concrete screenshots-mode state and a plain text line;
the step only clears the mode flag. -/
theorem c3_witness :
    stepE { tools := [],
            cur := { current := some { toolName := "W" },
                     currentKey := some .screenshots, inScreenshots := true } }
        "some plain text" =
      .ok { tools := [],
            cur := { current := some { toolName := "W" },
                     currentKey := some .screenshots, inScreenshots := false } } :=
  c3_amended [] _ { toolName := "W" } "some plain text" rfl rfl rfl rfl
    (by decide) (by decide) (by decide) (by decide) (by decide) (by decide)
    (by decide)

/-! ## Claim C7: the Category keyword default -/

theorem dedupF_nil : dedupF [] = [] := rfl

/-- C7: a record whose Category list is empty after parsing gets, in
post-processing, the single-element category chosen by the fixed keyword
priority: Writing (checked against Short Description or the cleaned
Introduction) first, then Image, then the generic fallback. -/
theorem c7_category_default (t : Tool) (d : FullDesc) (t2 : Tool)
    (hfd : t.fullDescription = .fd d)
    (hpost : postprocessTool t = .ok t2)
    (hcat : t.category = []) :
    t2.category =
      (if pyIn "Writing" t.shortDescription ||
          pyIn "Writing" (subFix d.introduction) then ["AI Writing Assistant"]
       else if pyIn "Image" t.shortDescription ||
          pyIn "Image" (subFix d.introduction) then ["AI Image Generation Tool"]
       else ["AI Tool"]) := by
  simp only [postprocessTool, hfd, hcat, dedupF_nil, FullDesc.mapAll] at hpost
  split_ifs at hpost ⊢ <;> (injection hpost with h2; rw [← h2]) <;> simp_all

/-- C7 witness (scenario E): empty Category with "Writing" in the Short
Description defaults to the writing-assistant category. -/
theorem c7_witness :
    postprocessTool { toolName := "W", shortDescription := "Writing helper" } =
        Except.ok { toolName := "W", shortDescription := "Writing helper",
                    category := ["AI Writing Assistant"], productType := "AI Tool" } ∧
      ({ toolName := "W", shortDescription := "Writing helper",
         category := ["AI Writing Assistant"], productType := "AI Tool" } : Tool).category =
        (if pyIn "Writing" "Writing helper" || pyIn "Writing" (subFix "") then
           ["AI Writing Assistant"]
         else if pyIn "Image" "Writing helper" || pyIn "Image" (subFix "") then
           ["AI Image Generation Tool"]
         else ["AI Tool"]) :=
  ⟨rfl, c7_category_default { toolName := "W", shortDescription := "Writing helper" }
    {} _ rfl rfl rfl⟩

/-! ## Claim C8: the Product Type default -/

theorem postprocessList_mem (ts : List Tool) (out : List Tool) (r : Tool)
    (h : postprocessList ts = .ok out) (hr : r ∈ out) :
    ∃ t ∈ ts, postprocessTool t = .ok r := by
  induction ts generalizing out with
  | nil =>
    rw [postprocessList] at h
    injection h with h2
    rw [← h2] at hr
    exact absurd hr (by simp)
  | cons t ts ih =>
    cases hp : postprocessTool t with
    | error e =>
      rw [postprocessList, hp] at h
      exact absurd h (by simp)
    | ok t2 =>
      cases hl : postprocessList ts with
      | error e =>
        rw [postprocessList, hp, hl] at h
        exact absurd h (by simp)
      | ok ts2 =>
        rw [postprocessList, hp, hl] at h
        injection h with h2
        rw [← h2] at hr
        rcases List.mem_cons.mp hr with hcase | hcase
        · exact ⟨t, List.mem_cons_self t ts, by rw [hp, hcase]⟩
        · obtain ⟨t3, ht3, hp3⟩ := ih ts2 hl hcase
          exact ⟨t3, List.mem_cons_of_mem t ht3, hp3⟩

/-- C8: post-processing replaces an empty Product Type by the sentinel
"AI Tool" and leaves a non-empty one unchanged; consequently every record
of the final output has a non-empty Product Type. -/
theorem c8_product_type :
    (∀ t t2, postprocessTool t = .ok t2 →
        t2.productType = if t.productType = "" then "AI Tool" else t.productType) ∧
      (∀ paras out r, doc_to_json paras = .ok out → r ∈ out →
        r.productType ≠ "") := by
  have part1 : ∀ t t2, postprocessTool t = .ok t2 →
      t2.productType = if t.productType = "" then "AI Tool" else t.productType := by
    intro t t2 hpost
    cases hfd : t.fullDescription with
    | fd d =>
      simp only [postprocessTool, hfd] at hpost
      split_ifs at hpost <;> injection hpost with h2 <;> subst h2 <;> simp_all
    | str s =>
      simp only [postprocessTool, hfd] at hpost
      split_ifs at hpost <;> injection hpost with h2 <;> subst h2 <;> simp_all
  refine ⟨part1, ?_⟩
  intro paras out r hdoc hr
  rw [doc_to_json] at hdoc
  cases hp : parseDoc paras with
  | error e => rw [hp] at hdoc; exact absurd hdoc (by simp)
  | ok ts =>
    rw [hp] at hdoc
    obtain ⟨t, _, hpt⟩ := postprocessList_mem ts out r hdoc hr
    rw [part1 t r hpt]
    split
    · simp
    · assumption

/-- C8 witness: a record with empty Product Type gets the sentinel, and a
concrete parsed document only contains non-empty Product Types. -/
theorem c8_witness :
    (({ toolName := "T", category := ["AI Tool"], productType := "AI Tool" } : Tool).productType =
        if ("" : String) = "" then "AI Tool" else "") ∧
      ({ toolName := "T", category := ["AI Tool"], productType := "AI Tool" } : Tool).productType ≠ "" :=
  ⟨c8_product_type.1 { toolName := "T" } _ rfl,
   c8_product_type.2 ["Tool Name:", "T"]
     [{ toolName := "T", category := ["AI Tool"], productType := "AI Tool" }]
     { toolName := "T", category := ["AI Tool"], productType := "AI Tool" }
     rfl (by simp)⟩

/-! ## Claim C1: emitted records have non-empty names -/

theorem pySet_toolName_of_url (t : Tool) (k : FieldName) (p : String)
    (hk : URL_FIELDS.contains k = true) :
    (Tool.pySet t k p).toolName = t.toolName := by
  cases k <;> simp [URL_FIELDS, Tool.pySet] at hk ⊢

theorem mem_append_named {ts : List Tool} {x t : Tool}
    (hinv : ∀ u ∈ ts, u.toolName ≠ "") (hx : x.toolName ≠ "")
    (ht : t ∈ ts ++ [x]) : t.toolName ≠ "" := by
  rcases List.mem_append.mp ht with hm | hm
  · exact hinv t hm
  · rw [List.mem_singleton.mp hm]
    exact hx

theorem stepE_tools_inv (s : State) (para : String) (s2 : State)
    (h : stepE s para = .ok s2) (hinv : ∀ t ∈ s.tools, t.toolName ≠ "") :
    ∀ t ∈ s2.tools, t.toolName ≠ "" := by
  simp only [stepE] at h
  split at h
  · injection h with h2
    rw [← h2]
    exact hinv
  · split at h
    · injection h with h2
      rw [← h2]
      intro t ht
      simp only [closeTools] at ht
      split at ht
      · exact hinv t ht
      · split at ht
        · exact hinv t ht
        · rename_i hname
          exact mem_append_named hinv hname ht
    · obtain ⟨c, _, hs⟩ := except_map_ok _ _ _ h
      rw [← hs]
      exact hinv

theorem runLines_tools_inv : ∀ (ps : List String) (s s2 : State),
    runLines s ps = .ok s2 → (∀ t ∈ s.tools, t.toolName ≠ "") →
    ∀ t ∈ s2.tools, t.toolName ≠ "" := by
  intro ps
  induction ps with
  | nil =>
    intro s s2 h hinv
    rw [runLines] at h
    injection h with h2
    rw [← h2]
    exact hinv
  | cons p ps ih =>
    intro s s2 h hinv
    rw [runLines] at h
    cases hs : stepE s p with
    | error e =>
      rw [hs] at h
      exact absurd h (by simp)
    | ok s1 =>
      rw [hs] at h
      exact ih s1 s2 h (stepE_tools_inv s p s1 hs hinv)

theorem finalize_tools_inv (s : State) (hinv : ∀ t ∈ s.tools, t.toolName ≠ "") :
    ∀ t ∈ finalize s, t.toolName ≠ "" := by
  intro t ht
  rw [finalize] at ht
  split at ht
  · exact hinv t ht
  · rename_i t0 _
    split at ht
    · exact hinv t ht
    · rename_i hname
      split at ht
      · exact mem_append_named hinv hname ht
      · rename_i p _
        split at ht
        · exact mem_append_named hinv hname ht
        · split at ht
          · exact mem_append_named hinv hname ht
          · rename_i k _
            split at ht
            · rename_i hurl
              split at ht
              · exact mem_append_named hinv
                  (show ({ t0 with screenshots := t0.screenshots ++ [p] } : Tool).toolName ≠ ""
                    from hname) ht
              · exact mem_append_named hinv
                  (by rw [pySet_toolName_of_url t0 k p hurl]; exact hname) ht
            · exact mem_append_named hinv hname ht

/-- C1: for every input sequence, every record the parser emits (on a
new-record marker or at end of input) has a non-empty Tool Name; a
current record with an empty Tool Name is dropped, never emitted. -/
theorem c1_emitted_names_nonempty (paras : List String) (ts : List Tool)
    (h : parseDoc paras = .ok ts) : ∀ t ∈ ts, t.toolName ≠ "" := by
  rw [parseDoc] at h
  obtain ⟨s, hs, hfin⟩ := except_map_ok _ _ _ h
  rw [← hfin]
  exact finalize_tools_inv s (runLines_tools_inv paras {} s hs (by simp))

/-- C1 witness: a concrete parse with one emitted record, whose name is
non-empty by the theorem. -/
theorem c1_witness : ({ toolName := "Acme" } : Tool).toolName ≠ "" :=
  c1_emitted_names_nonempty ["Tool Name:", "Acme"] [{ toolName := "Acme" }]
    rfl { toolName := "Acme" } (by simp)

/-! ## Claim C9: unrecognized lines and totality -/

/-- C9: the claim that an unrecognized line never raises for every cursor
state is false: in the cursor state that expects a tool name with no
record open, the name write dereferences the missing record and Python
raises (modelled by the error value).  The line matches no recognized
pattern. -/
theorem c9_counterexample :
    is_new_tool "hello" = false ∧ fieldDecl "hello" = none ∧
      lowerHasPrefix "hello" "logo:" = false ∧
      lowerHasPrefix "hello" "screenshots:" = false ∧
      subsectionDecl "hello" = none ∧
      stepE { tools := [], cur := { expectToolName := true } } "hello" =
        Except.error () :=
  ⟨rfl, rfl, rfl, rfl, rfl, rfl⟩

theorem generalContinuation_ok (t : Tool) (k : FieldName) (cl : String)
    (pu : Option String) (hk : k ≠ FieldName.fullDescription) :
    ∃ r, generalContinuation t k cl pu = .ok r := by
  cases k
  case fullDescription => exact absurd rfl hk
  all_goals
    simp only [generalContinuation]
    repeat' split
    all_goals exact ⟨_, rfl⟩

/-- C9 (amended): for every well-formed cursor state (a record is open
whenever the expect-name flag is set; a current key of Full Description
only occurs inside long-description mode; the long-description value is a
subsection map whenever a subsection is active), processing a line that
matches no recognized pattern never errors, and it never changes the
emitted collection: the line is handled by continuation logic or silently
dropped. -/
theorem c9_amended (s : State) (para : String)
    (hwf1 : s.cur.expectToolName = true → s.cur.current ≠ none)
    (hwf2 : s.cur.currentKey = some .fullDescription →
      s.cur.inFullDescription = true)
    (hwf3 : ∀ t, s.cur.current = some t → s.cur.inFullDescription = true →
      s.cur.currentSubsection ≠ none → ∃ d, t.fullDescription = .fd d)
    (hmark : is_new_tool (pyStripS para) = false)
    (hfield : fieldDecl (pyStripS para) = none)
    (hlogo : lowerHasPrefix (pyStripS para) "logo:" = false)
    (hshot : lowerHasPrefix (pyStripS para) "screenshots:" = false)
    (hsub : subsectionDecl (pyStripS para) = none) :
    ∃ s2, stepE s para = .ok s2 ∧ s2.tools = s.tools := by
  by_cases hline : pyStripS para = ""
  · exact ⟨s, by simp only [stepE, hline, if_pos], rfl⟩
  · have hcur : ∃ c, stepCursor s.cur (pyStripS para) = .ok c := by
      by_cases hexp : s.cur.expectToolName = true
      · cases hc : s.cur.current with
        | none => exact absurd hc (hwf1 hexp)
        | some t => exact ⟨_, by simp only [stepCursor, hexp, if_true, hc]; rfl⟩
      · rw [Bool.not_eq_true] at hexp
        cases hc : s.cur.current with
        | none =>
          exact ⟨s.cur, by
            simp only [stepCursor, hexp, Bool.false_eq_true, if_false, hc]⟩
        | some t =>
          have hclassify :
              ∃ c2, classifyStep s.cur t (pyStripS para)
                  (clean_text (pyStripS para)) = .ok c2 := by
            by_cases hscr : s.cur.inScreenshots = true
            · exact ⟨_, by
                simp only [classifyStep, hfield, hlogo, hshot, hscr, if_true]
                rfl⟩
            · rw [Bool.not_eq_true] at hscr
              by_cases hfd : s.cur.inFullDescription = true
              · cases hsubc : s.cur.currentSubsection with
                | none =>
                  exact ⟨s.cur, by
                    simp only [classifyStep, hfield, hlogo, hshot, hscr, hfd,
                      Bool.false_eq_true, if_false, if_true,
                      fullDescriptionStep, hsub, hsubc]⟩
                | some sub =>
                  obtain ⟨d, hd⟩ := hwf3 t hc hfd (by rw [hsubc]; simp)
                  exact ⟨_, by
                    simp only [classifyStep, hfield, hlogo, hshot, hscr, hfd,
                      if_true, fullDescriptionStep, hsub, hsubc, hd]
                    rfl⟩
              · rw [Bool.not_eq_true] at hfd
                cases hk : s.cur.currentKey with
                | none =>
                  exact ⟨s.cur, by
                    simp only [classifyStep, hfield, hlogo, hshot, hscr, hfd,
                      Bool.false_eq_true, if_false, hk]⟩
                | some k =>
                  have hkfd : k ≠ FieldName.fullDescription := by
                    intro he
                    rw [he] at hk
                    rw [hwf2 hk] at hfd
                    exact absurd hfd (by simp)
                  obtain ⟨r, hr⟩ :=
                    generalContinuation_ok t k (clean_text (pyStripS para))
                      s.cur.partialUrl hkfd
                  exact ⟨_, by
                    simp only [classifyStep, hfield, hlogo, hshot, hscr, hfd,
                      hk, hr, Except.map]
                    rfl⟩
          obtain ⟨c2, hc2⟩ := hclassify
          cases hp : s.cur.partialUrl with
          | some p =>
            by_cases hpe : p = ""
            · exact ⟨c2, by
                simp only [stepCursor, hexp, Bool.false_eq_true, if_false, hc,
                  hp, hpe, reduceIte, hc2]⟩
            · exact ⟨_, by
                simp only [stepCursor, hexp, Bool.false_eq_true, if_false, hc,
                  hp, if_neg hpe]
                rfl⟩
          | none =>
            exact ⟨c2, by
              simp only [stepCursor, hexp, Bool.false_eq_true, if_false, hc,
                hp, hc2]⟩
    obtain ⟨c, hcok⟩ := hcur
    refine ⟨{ tools := s.tools, cur := c }, ?_, rfl⟩
    simp only [stepE, hline, if_neg, hmark, Bool.false_eq_true, if_false, hcok,
      Except.map]

/-- C9 witness: a well-formed state (record open, inside a subsection of
the long description) and a plain unrecognized line; the step succeeds
and the emitted collection is untouched. -/
theorem c9_witness :
    ∃ s2,
      stepE { tools := [],
              cur := { current := some { toolName := "T" },
                       currentKey := some .fullDescription,
                       currentSubsection := some .introduction,
                       inFullDescription := true } } "just some words" = .ok s2 ∧
        s2.tools = [] :=
  c9_amended
    { tools := [],
      cur := { current := some { toolName := "T" },
               currentKey := some .fullDescription,
               currentSubsection := some .introduction,
               inFullDescription := true } }
    "just some words"
    (fun h => by simp at h) (fun _ => rfl)
    (fun t ht _ _ => ⟨{}, by injection ht with h2; rw [← h2]⟩)
    (by decide) (by decide) (by decide) (by decide) (by decide)

/-! ## Claim C4: idempotence of the post-processor -/

def c4Bad : Tool :=
  { toolName := "T", websiteLink := "[a](q https://x)", category := ["C"] }

def c4Mid : Tool :=
  { toolName := "T", websiteLink := "q https://x", category := ["C"],
    productType := "AI Tool" }

def c4End : Tool :=
  { toolName := "T", websiteLink := "https://x", category := ["C"],
    productType := "AI Tool" }

/-- C4: the claim that the post-processing pass is idempotent for every
record list is false: URL re-extraction is itself not idempotent.  A
Website Link holding a markup link whose target contains a bare URL is
rewritten to the target by the first pass, and the second pass then
extracts the bare URL out of it, changing the record again. -/
theorem c4_counterexample :
    postprocessList [c4Bad] = .ok [c4Mid] ∧
      postprocessList [c4Mid] = .ok [c4End] ∧ c4Mid ≠ c4End :=
  ⟨rfl, rfl, by decide⟩

theorem dedupF_mem {a : String} {xs : List String} (h : a ∈ dedupF xs) :
    a ∈ xs := by
  rw [dedupF, List.mem_dedup] at h
  exact (List.mem_filter.mp h).1

theorem dedupF_ne_empty {a : String} {xs : List String} (h : a ∈ dedupF xs) :
    a ≠ "" := by
  rw [dedupF, List.mem_dedup] at h
  have := (List.mem_filter.mp h).2
  simpa using this

theorem dedupF_idem (xs : List String) : dedupF (dedupF xs) = dedupF xs := by
  have h1 : (dedupF xs).filter (fun v => v ≠ "") = dedupF xs :=
    List.filter_eq_self.mpr (fun a ha => by simpa using dedupF_ne_empty ha)
  calc dedupF (dedupF xs) = ((dedupF xs).filter (fun v => v ≠ "")).dedup := rfl
    _ = (dedupF xs).dedup := by rw [h1]
    _ = (xs.filter (fun v => v ≠ "")).dedup.dedup := rfl
    _ = (xs.filter (fun v => v ≠ "")).dedup := List.dedup_idem
    _ = dedupF xs := rfl

theorem map_fixes {f : String → String} :
    ∀ (l : List String), (∀ a ∈ l, f a = a) → l.map f = l := by
  intro l
  induction l with
  | nil => intro _; rfl
  | cons a l ih =>
    intro h
    rw [List.map_cons, h a (List.mem_cons_self a l),
      ih (fun b hb => h b (List.mem_cons_of_mem a hb))]

/-- The stability predicate of the amended idempotence claim: the record
holds a subsection map, every subsection text is a fixed point of the
normalization step, and every stored URL value is a fixed point of URL
re-extraction. -/
def stableTool (t : Tool) : Bool :=
  match t.fullDescription with
  | .str _ => false
  | .fd d =>
    subFix d.introduction == d.introduction &&
    subFix d.keyFeatures == d.keyFeatures &&
    subFix d.useCases == d.useCases &&
    subFix d.howItWorks == d.howItWorks &&
    subFix d.whyChoose == d.whyChoose &&
    subFix d.futureVision == d.futureVision &&
    subFix d.conclusion == d.conclusion &&
    urlFix t.websiteLink == t.websiteLink &&
    urlFix t.logo == t.logo &&
    t.screenshots.all (fun v => urlFix v == v)

theorem postprocessTool_fd_ok (t : Tool) (d : FullDesc)
    (hfd : t.fullDescription = .fd d) :
    ∃ t2, postprocessTool t = .ok t2 := by
  simp only [postprocessTool, hfd]
  split_ifs <;> exact ⟨_, rfl⟩

theorem postprocessTool_ok_props (t : Tool) (d : FullDesc) (t2 : Tool)
    (hfd : t.fullDescription = .fd d)
    (hpost : postprocessTool t = .ok t2) :
    t2.toolName = t.toolName ∧
    t2.fullDescription = .fd (FullDesc.mapAll subFix d) ∧
    t2.websiteLink = urlFix t.websiteLink ∧
    t2.logo = urlFix t.logo ∧
    t2.screenshots = (dedupF t.screenshots).map urlFix ∧
    t2.tags = dedupF t.tags ∧
    t2.productType ≠ "" ∧
    t2.category ≠ [] ∧ dedupF t2.category = t2.category := by
  simp only [postprocessTool, hfd] at hpost
  split_ifs at hpost <;> injection hpost with h2 <;> subst h2 <;>
    refine ⟨rfl, rfl, rfl, rfl, rfl, rfl, ?_, ?_, ?_⟩ <;>
    dsimp only <;>
    first
      | decide
      | assumption
      | exact dedupF_idem _

theorem postprocessTool_fix (u : Tool) (d : FullDesc)
    (hufd : u.fullDescription = .fd d)
    (hd : FullDesc.mapAll subFix d = d)
    (hwl : urlFix u.websiteLink = u.websiteLink)
    (hlg : urlFix u.logo = u.logo)
    (hscr : ∀ v ∈ u.screenshots, urlFix v = v)
    (hc : dedupF u.category = u.category) (hcne : u.category ≠ [])
    (ht : dedupF u.tags = u.tags)
    (hs : dedupF u.screenshots = u.screenshots)
    (hpt : u.productType ≠ "") :
    postprocessTool u = .ok u := by
  simp only [postprocessTool, hufd, hd, hc, ht, hs, hwl, hlg,
    map_fixes u.screenshots hscr, hpt, hcne, if_false]
  rw [← hufd]

theorem postprocessTool_stable (t : Tool) (h : stableTool t = true) :
    ∃ t2, postprocessTool t = .ok t2 ∧ postprocessTool t2 = .ok t2 := by
  cases hfd : t.fullDescription with
  | str s =>
    simp only [stableTool, hfd] at h
    exact absurd h Bool.false_ne_true
  | fd d =>
    have h2 := h
    simp only [stableTool, hfd, Bool.and_eq_true, beq_iff_eq,
      List.all_eq_true] at h2
    obtain ⟨⟨⟨⟨⟨⟨⟨⟨⟨h1, hkf⟩, huc⟩, hhw⟩, hwc⟩, hfv⟩, hcc⟩, hwl⟩, hlg⟩, hscr⟩ := h2
    have hd : FullDesc.mapAll subFix d = d := by
      simp only [FullDesc.mapAll, h1, hkf, huc, hhw, hwc, hfv, hcc]
    obtain ⟨t2, hpost⟩ := postprocessTool_fd_ok t d hfd
    obtain ⟨pn, pfd, pwl, plg, pscr, ptg, ppt, pcne, pdc⟩ :=
      postprocessTool_ok_props t d t2 hfd hpost
    have hscr2 : t2.screenshots = dedupF t.screenshots := by
      rw [pscr]
      exact map_fixes _ (fun a ha => hscr a (dedupF_mem ha))
    refine ⟨t2, hpost, ?_⟩
    apply postprocessTool_fix t2 (FullDesc.mapAll subFix d) pfd
    · rw [hd]
      exact hd
    · rw [pwl, hwl]
      exact hwl
    · rw [plg, hlg]
      exact hlg
    · intro v hv
      rw [hscr2] at hv
      exact hscr v (dedupF_mem hv)
    · exact pdc
    · exact pcne
    · rw [ptg]
      exact dedupF_idem t.tags
    · rw [hscr2]
      exact dedupF_idem t.screenshots
    · exact ppt

/-- C4 (amended): the post-processing pass is idempotent on every record
list whose records hold a subsection map with normalization-stable
subsection texts and extraction-stable URL values.  On such lists one
pass succeeds and a second pass leaves its output unchanged.  (Without
the stability hypothesis idempotence fails: see the counterexample.) -/
theorem c4_amended (l : List Tool) (h : ∀ t ∈ l, stableTool t = true) :
    ∃ l2, postprocessList l = .ok l2 ∧ postprocessList l2 = .ok l2 := by
  induction l with
  | nil => exact ⟨[], rfl, rfl⟩
  | cons t ts ih =>
    obtain ⟨t2, hp1, hp2⟩ :=
      postprocessTool_stable t (h t (List.mem_cons_self t ts))
    obtain ⟨ts2, hl1, hl2⟩ := ih (fun u hu => h u (List.mem_cons_of_mem t hu))
    refine ⟨t2 :: ts2, ?_, ?_⟩
    · simp only [postprocessList, hp1, hl1]
    · simp only [postprocessList, hp2, hl2]

def c4Good : Tool :=
  { toolName := "T", websiteLink := "https://x",
    screenshots := ["https://a", ""], category := ["Cat", "Cat"],
    fullDescription := .fd { introduction := "Intro text" } }

/-- C4 witness: a concrete stable record list on which the pass is
idempotent. -/
theorem c4_witness :
    (∀ t ∈ [c4Good], stableTool t = true) ∧
      ∃ l2, postprocessList [c4Good] = .ok l2 ∧ postprocessList l2 = .ok l2 :=
  ⟨by decide, c4_amended [c4Good] (by decide)⟩
